import Mathlib

/-!
Verification development for the `int_mod.h` modular-integer engine
(`math_nerd::int_mod`).  The C++ routines are embedded shallowly: `s64`
values become `Int`, C++ truncating division `/` and remainder `%` become
`Int.tdiv` and `Int.tmod`, and the routines that can throw are modelled
with `Except String`.
-/

namespace MathNerd

/-- `INT64_MAX`, the bound used by the overflow guards in the source. -/
def INT64_MAX : Int := 9223372036854775807

/-- Embedding of `impl_details::gcd` (`int_mod.h` lines 869-877): plain
Euclidean recursion on C++ truncating remainder, with no absolute values
taken anywhere. -/
def gcd (a b : Int) : Int :=
  if b = 0 then a else gcd b (a.tmod b)
termination_by b.natAbs
decreasing_by
  have h : (a.tmod b).natAbs = a.natAbs % b.natAbs := by
    cases a <;> cases b <;>
      simp only [Int.tmod, Int.natAbs_neg, Int.natAbs_negSucc] <;> rfl
  have hb : b.natAbs ≠ 0 := fun hh => (by assumption : ¬b = 0) (Int.natAbs_eq_zero.mp hh)
  exact h ▸ Nat.mod_lt _ (Nat.pos_of_ne_zero hb)

/-- Embedding of `impl_details::euler_phi` (lines 882-895): `res` starts at
`1` and the loop counts `i` from `2` up to `n - 1`, incrementing `res`
whenever `gcd(i, n) == 1`.  The loop counter is modelled as an unbounded
integer. -/
def euler_phi (n : Int) : Int :=
  (List.range' 2 (n.toNat - 2)).foldl
    (fun (res : Int) (i : Nat) => if gcd (i : Int) n = 1 then res + 1 else res) 1

/-- Embedding of `impl_details::ipow` (lines 903-929).  The source starts
with `if (exponent < 0) { std::invalid_argument("..."); }`, which
constructs the exception object and immediately discards it without
throwing, so that statement has no observable effect and execution falls
through to the code below it; the embedding therefore has no error case. -/
def ipow (base exponent N : Int) : Int :=
  if base = 0 then 0
  else if exponent = 0 then 1
  else
    let tmp := ipow base (exponent.tdiv 2) N
    if exponent.tmod 2 = 0 then (tmp * tmp).tmod N
    else (base * tmp * tmp).tmod N
termination_by exponent.natAbs
decreasing_by
  have h : (exponent.tdiv 2).natAbs = exponent.natAbs / 2 := by
    cases exponent <;>
      simp only [Int.tdiv, Int.natAbs_neg, Int.natAbs_negSucc] <;> rfl
  have he : exponent.natAbs ≠ 0 :=
    fun hh => (by assumption : ¬exponent = 0) (Int.natAbs_eq_zero.mp hh)
  exact h ▸ Nat.div_lt_self (Nat.pos_of_ne_zero he) one_lt_two

/-- Embedding of `impl_details::inverse_of<N>` (lines 936-983).  The
static per-instantiation cache for `phi` always holds `euler_phi(N)`, so it
is modelled by computing `euler_phi N` directly; the thrown
`std::invalid_argument` becomes `Except.error` carrying the exact message
built by the stream inserts. -/
def inverse_of (N n : Int) : Except String Int :=
  let phi := euler_phi N
  let d := gcd n N
  if d = 1 then
    Except.ok (ipow (n.tmod N) (phi - 1) N)
  else
    Except.error (toString n ++ " is not invertible modulo " ++ toString N ++
      " because gcd(" ++ toString n ++ ", " ++ toString N ++ ") = " ++
      toString d ++ ", which is not 1.\n")

/-- Embedding of `impl_details::standard_modulo<N>` (lines 985-998). -/
def standard_modulo (N rhs : Int) : Int :=
  if rhs < 0 then rhs + (-(rhs.tdiv N) + 1) * N
  else if rhs > N then rhs.tmod N
  else rhs

/-- Embedding of the `int_mod<N>(s64)` constructor (lines 70-74): the
stored `element_` is `standard_modulo<N>(num)` reduced once more by `% N`. -/
def int_mod_init (N num : Int) : Int :=
  (standard_modulo N num).tmod N

/-- Embedding of `int_mod<N>::operator-=(s64)` (lines 498-513), acting on
the stored element `lhs`. -/
def subAssign_s64 (N lhs rhs : Int) : Int :=
  let r := standard_modulo N rhs
  if r > lhs then N - (r - lhs) else lhs - r

/-- Embedding of the free `operator-(int_mod<N>, s64)` (lines 705-718):
when `lhs.value() < rhs % N` it returns the `int_mod` constructed from
`(rhs % N) - lhs.value()`, otherwise it delegates to `operator-=`. -/
def subFree_s64 (N lhs rhs : Int) : Int :=
  if lhs < rhs.tmod N then int_mod_init N (rhs.tmod N - lhs)
  else subAssign_s64 N lhs rhs

/-- The iterate-and-reduce loop inside `operator*=(s64)` (lines 520-529),
entered while `INT64_MAX / rhs < element_`.  The source can only reach this
loop with `0 < rhs` (the `rhs = 0` case already divided by zero at the
guard), and the conjunct `0 < rhs` makes the recursion well-founded. -/
def mul_loop (N old element rhs : Int) : Int × Int :=
  if 0 < rhs ∧ INT64_MAX.tdiv rhs < element then
    mul_loop N old ((element + old).tmod N) (rhs - 1)
  else (element, rhs)
termination_by rhs.toNat
decreasing_by omega

/-- Embedding of `int_mod<N>::operator*=(s64)` (lines 515-535), acting on
the stored element `lhs`.  After normalizing `rhs`, the source evaluates
the overflow guard `INT64_MAX / rhs` unconditionally; when the normalized
`rhs` is `0` this is an integer division by zero, which is undefined
behaviour in C++ and is modelled as `none`. -/
def mulAssign_s64 (N lhs rhs : Int) : Option Int :=
  let r := standard_modulo N rhs
  if r = 0 then none
  else
    let p := if INT64_MAX.tdiv r < lhs then mul_loop N lhs lhs r else (lhs, r)
    some ((p.1 * p.2).tmod N)

/-- Embedding of `operator>>(std::istream &, int_mod<N> &)` (lines
852-858): the decimal token `t` is read straight into `element_`, which is
then reduced with the C++ truncating `%= N`. -/
def extract_s64 (N t : Int) : Int :=
  t.tmod N

/-- `(a.tmod b).natAbs` is `a.natAbs % b.natAbs` (t-division remainder). -/
theorem natAbs_tmod (a b : Int) : (a.tmod b).natAbs = a.natAbs % b.natAbs := by
  cases a <;> cases b <;>
    simp only [Int.tmod, Int.natAbs_neg, Int.natAbs_negSucc] <;> rfl

/-- One-step unfolding of `gcd`, for rewriting. -/
theorem gcd_eq (a b : Int) : gcd a b = if b = 0 then a else gcd b (a.tmod b) := by
  conv_lhs => rw [gcd]

/-- One-step unfolding of `ipow`, for rewriting. -/
theorem ipow_eq (base exponent N : Int) :
    ipow base exponent N =
      if base = 0 then 0
      else if exponent = 0 then 1
      else
        let tmp := ipow base (exponent.tdiv 2) N
        if exponent.tmod 2 = 0 then (tmp * tmp).tmod N
        else (base * tmp * tmp).tmod N := by
  conv_lhs => rw [ipow]

/-- On non-negative inputs the source `gcd` agrees with the mathematical
greatest common divisor (the sign defect only shows up on negative
inputs). -/
theorem gcd_nonneg_eq (k : Nat) :
    ∀ a b : Int, 0 ≤ a → 0 ≤ b → b.toNat = k →
      gcd a b = (Nat.gcd a.toNat b.toNat : Int) := by
  induction k using Nat.strong_induction_on with
  | _ k ih =>
    intro a b ha hb hk
    rw [gcd_eq]
    by_cases h : b = 0
    · subst h
      rw [if_pos rfl]
      simp [Int.toNat_of_nonneg ha]
    · rw [if_neg h]
      have h1 : 0 ≤ a.tmod b := Int.tmod_nonneg b ha
      have h2 : (a.tmod b).natAbs < b.natAbs := by
        rw [natAbs_tmod]
        exact Nat.mod_lt _ (Nat.pos_of_ne_zero fun hh => h (Int.natAbs_eq_zero.mp hh))
      have h3 : (a.tmod b).toNat < k := by omega
      rw [ih _ h3 b (a.tmod b) hb h1 rfl]
      have e1 : (a.tmod b).toNat = (a.tmod b).natAbs := by omega
      have e2 : a.natAbs = a.toNat := by omega
      have e3 : b.natAbs = b.toNat := by omega
      have e4 : (a.tmod b).toNat = a.toNat % b.toNat := by
        rw [e1, natAbs_tmod, e2, e3]
      rw [e4]
      congr 1
      rw [Nat.gcd_comm b.toNat (a.toNat % b.toNat), ← Nat.gcd_rec b.toNat a.toNat,
        Nat.gcd_comm b.toNat a.toNat]

/-- The `euler_phi` fold counts the list elements satisfying the gcd
test. -/
theorem euler_phi_foldl (n : Int) :
    ∀ (l : List Nat) (acc : Int),
      l.foldl (fun (res : Int) (i : Nat) => if gcd (i : Int) n = 1 then res + 1 else res) acc
        = acc + ((l.countP fun (i : Nat) => decide (gcd (i : Int) n = 1)) : Int) := by
  intro l
  induction l with
  | nil => intro acc; simp
  | cons x xs ih =>
    intro acc
    rw [List.foldl_cons, List.countP_cons]
    by_cases h : gcd (x : Int) n = 1
    · rw [if_pos h, ih, if_pos (by simpa using h)]
      push_cast
      ring
    · rw [if_neg h, ih, if_neg (by simpa using h)]
      push_cast
      ring

/-- Counting over `List.range'` is a filtered-interval cardinality. -/
theorem countP_range' (p : Nat → Bool) :
    ∀ m s : Nat,
      (List.range' s m).countP p
        = ((Finset.Ico s (s + m)).filter fun i => p i = true).card := by
  intro m
  induction m with
  | zero => intro s; simp
  | succ m ih =>
    intro s
    rw [List.range'_concat, List.countP_append]
    have hins : Finset.Ico s (s + (m + 1)) = insert (s + m) (Finset.Ico s (s + m)) := by
      have hsm : s + (m + 1) = (s + m) + 1 := by omega
      rw [hsm]
      exact Nat.Ico_succ_right_eq_insert_Ico (by omega)
    rw [hins, Finset.filter_insert]
    have hnotmem : s + m ∉ (Finset.Ico s (s + m)).filter fun i => p i = true := by
      simp [Finset.mem_filter, Finset.mem_Ico]
    by_cases h : p (s + m)
    · rw [if_pos (by simpa using h), Finset.card_insert_of_not_mem hnotmem, ih]
      simp [h]
    · rw [if_neg (by simpa using h), ih]
      simp [h]

/-- For `n ≥ 2`, `euler_phi n` is one more than the number of
`i ∈ [2, n)` with `gcd(i, n) = 1`. -/
theorem euler_phi_eq_card (n : Int) (hn : 2 ≤ n) :
    euler_phi n
      = 1 + (((Finset.Ico 2 n.toNat).filter fun i => Nat.gcd i n.toNat = 1).card : Int) := by
  unfold euler_phi
  rw [euler_phi_foldl, countP_range']
  have h2 : 2 + (n.toNat - 2) = n.toNat := by omega
  rw [h2]
  have hfil :
      ((Finset.Ico 2 n.toNat).filter fun (i : Nat) => decide (gcd (i : Int) n = 1) = true)
        = ((Finset.Ico 2 n.toNat).filter fun i => Nat.gcd i n.toNat = 1) := by
    apply Finset.filter_congr
    intro i _
    rw [decide_eq_true_eq]
    rw [gcd_nonneg_eq n.toNat (i : Int) n (by positivity) (by omega) rfl]
    rw [Int.toNat_natCast]
    constructor
    · intro hg
      exact_mod_cast hg
    · intro hg
      exact_mod_cast hg
  rw [hfil]

/-- For `m ≥ 2`, the totient is one plus the number of `i ∈ [2, m)`
coprime to `m`. -/
theorem totient_eq_one_add (m : Nat) (hm : 2 ≤ m) :
    Nat.totient m = 1 + ((Finset.Ico 2 m).filter fun i => Nat.gcd i m = 1).card := by
  rw [Nat.totient]
  have hset : (Finset.range m).filter m.Coprime
      = insert 1 ((Finset.Ico 2 m).filter fun i => Nat.gcd i m = 1) := by
    ext i
    simp only [Finset.mem_filter, Finset.mem_range, Finset.mem_insert, Finset.mem_Ico,
      Nat.Coprime]
    constructor
    · rintro ⟨hlt, hg⟩
      rcases Nat.lt_or_ge i 2 with hi | hi
      · have hcases : i = 0 ∨ i = 1 := by omega
        rcases hcases with rfl | rfl
        · rw [Nat.gcd_zero_right] at hg
          omega
        · left; rfl
      · right
        exact ⟨⟨hi, hlt⟩, by rwa [Nat.gcd_comm]⟩
    · rintro (rfl | ⟨⟨h2i, hlt⟩, hg⟩)
      · exact ⟨by omega, Nat.gcd_one_right m⟩
      · exact ⟨hlt, by rwa [Nat.gcd_comm]⟩
  rw [hset, Finset.card_insert_of_not_mem (by simp [Finset.mem_filter, Finset.mem_Ico])]
  omega

/-- `euler_phi` computes the mathematical totient of the modulus. -/
theorem euler_phi_eq_totient (n : Int) (hn : 1 ≤ n) :
    euler_phi n = (Nat.totient n.toNat : Int) := by
  by_cases h1 : n = 1
  · subst h1
    decide
  · have hn2 : 2 ≤ n := by omega
    rw [euler_phi_eq_card n hn2, totient_eq_one_add n.toNat (by omega)]
    push_cast
    ring

/-- For `m ≥ 1`, the totient counts the integers in `[1, m]` coprime to
`m`. -/
theorem totient_eq_card_Icc (m : Nat) (hm : 1 ≤ m) :
    Nat.totient m = ((Finset.Icc 1 m).filter fun i => Nat.Coprime i m).card := by
  by_cases h1 : m = 1
  · subst h1
    decide
  · have hm2 : 2 ≤ m := by omega
    rw [totient_eq_one_add m hm2]
    have hset : (Finset.Icc 1 m).filter (fun i => Nat.Coprime i m)
        = insert 1 ((Finset.Ico 2 m).filter fun i => Nat.gcd i m = 1) := by
      ext i
      simp only [Finset.mem_filter, Finset.mem_Icc, Finset.mem_insert, Finset.mem_Ico,
        Nat.Coprime]
      constructor
      · rintro ⟨⟨h1i, him⟩, hg⟩
        by_cases hi1 : i = 1
        · left; exact hi1
        · right
          have him' : i ≠ m := by
            intro hh
            subst hh
            rw [Nat.gcd_self] at hg
            omega
          exact ⟨⟨by omega, by omega⟩, hg⟩
      · rintro (rfl | ⟨⟨h2i, hlt⟩, hg⟩)
        · exact ⟨⟨le_refl 1, by omega⟩, Nat.gcd_one_left m⟩
        · exact ⟨⟨by omega, by omega⟩, hg⟩
    rw [hset, Finset.card_insert_of_not_mem (by simp [Finset.mem_filter, Finset.mem_Ico])]
    omega

/-- `ipow` on a base `b ≥ 1`, a natural exponent and a modulus `N ≥ 2`
computes `b ^ k mod N`. -/
theorem ipow_pow (N : Int) (hN : 2 ≤ N) :
    ∀ (k : Nat) (b : Int), 1 ≤ b → ipow b (k : Int) N = b ^ k % N := by
  intro k
  induction k using Nat.strong_induction_on with
  | _ k ih =>
    intro b hb
    rw [ipow_eq, if_neg (by omega : ¬b = 0)]
    by_cases hk : k = 0
    · subst hk
      rw [if_pos (by norm_num)]
      rw [pow_zero, Int.emod_eq_of_lt (by omega) (by omega)]
    · rw [if_neg (by exact_mod_cast hk)]
      have hdiv : (k : Int).tdiv 2 = ((k / 2 : Nat) : Int) := rfl
      have hmod : (k : Int).tmod 2 = ((k % 2 : Nat) : Int) := rfl
      have hrec : ipow b ((k : Int).tdiv 2) N = b ^ (k / 2) % N := by
        rw [hdiv]
        exact ih (k / 2) (Nat.div_lt_self (Nat.pos_of_ne_zero hk) one_lt_two) b hb
      have hNne : N ≠ 0 := by omega
      have hx : 0 ≤ b ^ (k / 2) % N := Int.emod_nonneg _ hNne
      have hmx : Int.ModEq N (b ^ (k / 2) % N) (b ^ (k / 2)) :=
        Int.emod_emod_of_dvd _ dvd_rfl
      by_cases hp : k % 2 = 0
      · rw [if_pos (by rw [hmod, hp]; rfl)]
        simp only [hrec]
        rw [Int.tmod_eq_emod (by positivity) (by omega)]
        have hmm : Int.ModEq N (b ^ (k / 2) % N * (b ^ (k / 2) % N))
            (b ^ (k / 2) * b ^ (k / 2)) := hmx.mul hmx
        have hpow : b ^ (k / 2) * b ^ (k / 2) = b ^ k := by
          rw [← pow_add]
          congr 1
          omega
        calc (b ^ (k / 2) % N * (b ^ (k / 2) % N)) % N
            = (b ^ (k / 2) * b ^ (k / 2)) % N := hmm
          _ = b ^ k % N := by rw [hpow]
      · rw [if_neg (by rw [hmod]; omega)]
        simp only [hrec]
        rw [Int.tmod_eq_emod (by positivity) (by omega)]
        have hmm : Int.ModEq N (b * (b ^ (k / 2) % N) * (b ^ (k / 2) % N))
            (b * b ^ (k / 2) * b ^ (k / 2)) := ((Int.ModEq.refl b).mul hmx).mul hmx
        have hpow : b * b ^ (k / 2) * b ^ (k / 2) = b ^ k := by
          rw [mul_assoc, ← pow_add]
          rw [show b * b ^ (k / 2 + k / 2) = b ^ (k / 2 + k / 2 + 1) from
            (pow_succ' b (k / 2 + k / 2)).symm]
          congr 1
          omega
        calc (b * (b ^ (k / 2) % N) * (b ^ (k / 2) % N)) % N
            = (b * b ^ (k / 2) * b ^ (k / 2)) % N := hmm
          _ = b ^ k % N := by rw [hpow]

/-- C2: `standard_modulo<13>(13)` returns `13`, not the canonical
representative `0` required by the claim (and by the repository's own test
`REQUIRE(standard_modulo<13>(13) == 0)`); likewise
`standard_modulo<2>(-123456)` returns `2`, not `0`. -/
theorem standard_modulo_at_multiple_of_modulus :
    standard_modulo 13 13 = 13 ∧ standard_modulo 2 (-123456) = 2 := by
  constructor <;> decide

/-- C4: with a negative exponent, `ipow` does not fail; the discarded
`std::invalid_argument` has no effect and `ipow(2, -1, 5)` computes and
returns `2` (`-1 / 2` truncates to `0`, so the recursion bottoms out and
the odd branch returns `(2 * 1 * 1) % 5`). -/
theorem ipow_negative_exponent_returns_value : ipow 2 (-1) 5 = 2 := by
  rw [ipow, ipow]
  decide

/-- C5: the free `operator-(int_mod<7>{2}, 5)` returns `3`, while
`operator-=` applied to a copy of the left operand yields `4`, the
canonical representative of `(2 - 5) mod 7`; the free operator is not
equivalent to the compound-assignment primitive. -/
theorem subFree_s64_ne_subAssign_s64 :
    subFree_s64 7 2 5 = 3 ∧ subAssign_s64 7 2 5 = 4 := by
  constructor <;> decide

/-- C6: extracting the token `-1` into an `int_mod<15>` stores `-1`
(truncating `%=` keeps the sign), so the stored value is neither in
`[0, 15)` nor the canonical residue `14`. -/
theorem extract_s64_breaks_invariant :
    extract_s64 15 (-1) = -1 ∧ ¬ (0 ≤ extract_s64 15 (-1)) := by
  constructor <;> decide

/-- C7: `int_mod<13>{7} *= 0` normalizes `rhs` to `0` and then evaluates
the overflow guard `INT64_MAX / 0`, a division by zero (undefined
behaviour), modelled as `none`: the zero-divisor evaluation is reachable. -/
theorem mulAssign_s64_zero_divides_by_zero : mulAssign_s64 13 7 0 = none := by
  decide

/-- C8: `gcd(-7, 14)` returns `-7`: the result is negative and differs
from `gcd(|-7|, |14|) = 7`, the value the claim (and the repository's own
test `REQUIRE(gcd(-7, 14) == 7)`) requires. -/
theorem gcd_negative_input_returns_negative :
    gcd (-7) 14 = -7 ∧ gcd 7 14 = 7 := by
  constructor
  · rw [gcd_eq, if_neg (by decide), show ((-7 : Int).tmod 14) = -7 from by decide,
      gcd_eq, if_neg (by decide), show ((14 : Int).tmod (-7)) = 0 from by decide,
      gcd_eq, if_pos rfl]
  · rw [gcd_eq, if_neg (by decide), show ((7 : Int).tmod 14) = 7 from by decide,
      gcd_eq, if_neg (by decide), show ((14 : Int).tmod 7) = 0 from by decide,
      gcd_eq, if_pos rfl]

/-- C3 counterexample: `ipow(0, 0, 5)` returns `0`, not `1`: the `base == 0`
early return precedes the `exponent == 0` check. -/
theorem ipow_zero_zero_ne_one : ¬ ipow 0 0 5 = 1 := by
  rw [ipow]
  decide

/-- C3 amended: modular exponentiation with exponent `0` returns `1` for
every nonzero base and every modulus, while for base `0` it returns `0`
(exponent `0` included). -/
theorem ipow_exponent_zero (b N : Int) (hb : b ≠ 0) :
    ipow b 0 N = 1 ∧ ipow 0 0 N = 0 := by
  constructor
  · rw [ipow]
    simp [hb]
  · rw [ipow]
    simp

/-- C3 amended, witness at `b = 13`, `N = 7`. -/
theorem ipow_exponent_zero_witness :
    (13 : Int) ≠ 0 ∧ (ipow 13 0 7 = 1 ∧ ipow 0 0 7 = 0) :=
  ⟨by decide, ipow_exponent_zero 13 7 (by decide)⟩

/-- C9: `inverse_of<1234>(2)` fails, and the diagnostic message is exactly
the expected string, with the raw `n = 2` substituted both as the leading
value and inside `gcd(2, 1234)`. -/
theorem inverse_of_error_message_exact :
    inverse_of 1234 2 =
      Except.error
        "2 is not invertible modulo 1234 because gcd(2, 1234) = 2, which is not 1.\n" := by
  have hd : gcd 2 1234 = 2 := by
    rw [gcd_eq, if_neg (by decide), show ((2 : Int).tmod 1234) = 2 from by decide,
      gcd_eq, if_neg (by decide), show ((1234 : Int).tmod 2) = 0 from by decide,
      gcd_eq, if_pos rfl]
  simp only [inverse_of, hd]
  rw [if_neg (by decide)]
  rfl

/-- C1 counterexample: `-1` is coprime to `3` (`Int.gcd (-1) 3 = 1`), yet
`inverse_of<3>(-1)` fails: the sign-oblivious internal `gcd` returns `-1`,
which is compared against `1`, so the not-invertible error is raised
instead of an inverse being produced. -/
theorem inverse_of_negative_coprime_fails :
    Int.gcd (-1) 3 = 1 ∧
      inverse_of 3 (-1) =
        Except.error
          "-1 is not invertible modulo 3 because gcd(-1, 3) = -1, which is not 1.\n" := by
  constructor
  · decide
  · have hd : gcd (-1) 3 = -1 := by
      rw [gcd_eq, if_neg (by decide), show ((-1 : Int).tmod 3) = -1 from by decide,
        gcd_eq, if_neg (by decide), show ((3 : Int).tmod (-1)) = 0 from by decide,
        gcd_eq, if_pos rfl]
    simp only [inverse_of, hd]
    rw [if_neg (by decide)]
    rfl

/-- C1 amended: for every modulus `N ≥ 2` and every non-negative `n`
coprime to `N`, `inverse_of<N>(n)` succeeds and the result is a
multiplicative inverse of `n` modulo `N`. -/
theorem inverse_of_correct_nonneg (N n : Int) (hN : 2 ≤ N) (hn : 0 ≤ n)
    (h : Int.gcd n N = 1) :
    ∃ m, inverse_of N n = Except.ok m ∧ (n * m).tmod N = 1 := by
  have hN0 : 0 ≤ N := by omega
  have hnat : Int.gcd n N = Nat.gcd n.toNat N.toNat := by
    unfold Int.gcd
    congr 1 <;> omega
  have hd1 : gcd n N = 1 := by
    rw [gcd_nonneg_eq N.toNat n N hn hN0 rfl, ← hnat, h]
    rfl
  simp only [inverse_of, hd1]
  rw [if_pos trivial]
  refine ⟨_, rfl, ?_⟩
  set NN := N.toNat with hNN
  set nn := n.toNat with hnn
  have hNcast : (NN : Int) = N := Int.toNat_of_nonneg hN0
  have hncast : (nn : Int) = n := Int.toNat_of_nonneg hn
  have hb : n.tmod N = ((nn % NN : Nat) : Int) := by
    rw [Int.tmod_eq_emod hn hN0, ← hNcast, ← hncast, Int.natCast_mod]
  have hcop : Nat.Coprime nn NN := by
    show Nat.gcd nn NN = 1
    rw [← hnat]
    exact h
  have hcopb : Nat.Coprime (nn % NN) NN := by
    have hrec := Nat.gcd_rec NN nn
    show Nat.gcd (nn % NN) NN = 1
    rw [← hrec, Nat.gcd_comm]
    exact hcop
  have hNN2 : 2 ≤ NN := by omega
  have hbpos : nn % NN ≠ 0 := by
    intro hz
    have hg1 : Nat.gcd (nn % NN) NN = 1 := hcopb
    rw [hz, Nat.gcd_zero_left] at hg1
    omega
  have hb1 : (1 : Int) ≤ n.tmod N := by
    rw [hb]
    exact_mod_cast Nat.one_le_iff_ne_zero.mpr hbpos
  set φ := Nat.totient NN with hφ
  have hφ1 : 1 ≤ φ := Nat.totient_pos.mpr (by omega)
  have hphi : euler_phi N = (φ : Int) := by
    rw [euler_phi_eq_totient N (by omega)]
  have hexp : euler_phi N - 1 = ((φ - 1 : Nat) : Int) := by
    rw [hphi]
    omega
  rw [hexp, ipow_pow N hN (φ - 1) (n.tmod N) hb1]
  set b := n.tmod N with hbdef
  have hm0 : 0 ≤ b ^ (φ - 1) % N := Int.emod_nonneg _ (by omega)
  rw [Int.tmod_eq_emod (mul_nonneg hn hm0) hN0]
  have c1 : Int.ModEq N n b := by
    have : b % N = n % N := by
      rw [hbdef, Int.tmod_eq_emod hn hN0]
      exact Int.emod_emod_of_dvd n dvd_rfl
    exact this.symm
  have c2 : Int.ModEq N (b ^ (φ - 1) % N) (b ^ (φ - 1)) :=
    Int.emod_emod_of_dvd _ dvd_rfl
  have c3 : Int.ModEq N (n * (b ^ (φ - 1) % N)) (b * b ^ (φ - 1)) := c1.mul c2
  have c4 : b * b ^ (φ - 1) = b ^ φ := by
    rw [show b * b ^ (φ - 1) = b ^ (φ - 1 + 1) from (pow_succ' b (φ - 1)).symm]
    congr 1
    omega
  have heuler : b ^ φ % N = 1 % N := by
    have hnatmod : (nn % NN) ^ φ % NN = 1 % NN := Nat.ModEq.pow_totient hcopb
    have hc := congrArg (fun t : Nat => (t : Int)) hnatmod
    push_cast at hc
    have hb' : b = (nn : Int) % (NN : Int) := by
      rw [hb]
      push_cast
      rfl
    rw [← hb', hNcast] at hc
    exact hc
  calc n * (b ^ (φ - 1) % N) % N
      = (b * b ^ (φ - 1)) % N := c3
    _ = b ^ φ % N := by rw [c4]
    _ = 1 % N := heuler
    _ = 1 := Int.emod_eq_of_lt (by omega) (by omega)

/-- C1 amended, witness at `N = 13`, `n = 12`. -/
theorem inverse_of_correct_nonneg_witness :
    (2 ≤ (13 : Int) ∧ 0 ≤ (12 : Int) ∧ Int.gcd 12 13 = 1) ∧
      ∃ m, inverse_of 13 12 = Except.ok m ∧ ((12 : Int) * m).tmod 13 = 1 :=
  ⟨⟨by decide, by decide, by decide⟩,
    inverse_of_correct_nonneg 13 12 (by decide) (by decide) (by decide)⟩

/-- C10: `euler_phi n` counts the integers in `[1, n]` coprime to `n`, and
on a prime modulus it returns `n - 1`. -/
theorem euler_phi_count_coprime (n : Int) (hn : 1 ≤ n) :
    euler_phi n
        = (((Finset.Icc 1 n.toNat).filter fun i => Nat.Coprime i n.toNat).card : Int) ∧
      (Nat.Prime n.toNat → euler_phi n = n - 1) := by
  constructor
  · rw [euler_phi_eq_totient n hn, totient_eq_card_Icc n.toNat (by omega)]
  · intro hp
    rw [euler_phi_eq_totient n hn, Nat.totient_prime hp]
    have h2 : 2 ≤ n.toNat := hp.two_le
    omega

/-- C10, witness at `n = 7`. -/
theorem euler_phi_count_coprime_witness :
    (1 : Int) ≤ 7 ∧
      (euler_phi 7
          = (((Finset.Icc 1 (7 : Int).toNat).filter fun i => Nat.Coprime i (7 : Int).toNat).card : Int) ∧
        (Nat.Prime (7 : Int).toNat → euler_phi 7 = 7 - 1)) :=
  ⟨by decide, euler_phi_count_coprime 7 (by decide)⟩

end MathNerd
